import Mathlib

set_option autoImplicit false

/-!
Shallow embedding of the download scheduler in `multithread.py`
(class `MultiThread`: `__init__`, `add_package`, `fetch_packages`).

Modelling choices:
- Server queues (`self.url_queue`, a Python dict from server to a list of
  `(remote, local)` pairs) become an association list in insertion order.
- The curl handle ring (`self.mc.handles`) becomes a list of `Curl` records;
  `curllist` is the idle pool and `inflight` the handles currently added to
  the multi object, in `add_handle` order.
- The transport layer is an oracle: at round `t`, `oracle t i` tells whether
  the transfer bound to handle `i` is still running (`none`), finished
  successfully (`some true`), or failed (`some false`).  One `info_read`
  batch is drained per round.
- `open(local, 'wb')` is modelled by a predicate `fsOpen : String → Bool`;
  when it is false the run aborts carrying the raised path, because the
  Python code has no try/except around the `open` call.
- The unbounded outer `while processed < self.npackages` loop gets fuel;
  running out of fuel models a run whose transfers never all complete.
- A ghost `events` trace records launches, completions and teardown closes,
  and a ghost counter `nextFp` hands out one fresh id per opened file
  handle.  Neither influences the control flow.
-/

namespace YumMT

/-- One curl easy handle (`pycurl.Curl()` in `__init__`): its id in the ring,
its open output file (`sc.fp`, by fresh id; `none` when closed), and the
fields `sc.remote`, `sc.local`, `sc.server` set at launch time. -/
structure Curl where
  id : Nat
  fp : Option Nat
  remote : String
  loc : String
  server : String
deriving DecidableEq

/-- Ghost trace entries: a launch (admission bound a task to a handle and
opened its output file), a completion (reap closed the file; `ok` tells
success from failure), and a teardown close of a still-open file. -/
inductive Event where
  | launch (server remote loc : String) (fp : Nat)
  | complete (server remote loc : String) (ok : Bool) (fp : Nat)
  | closeTeardown (fp : Nat)
deriving DecidableEq

/-- The server queue table `self.url_queue` as an association list from
server to its pending `(remote, local)` pairs. -/
abbrev QTable := List (String × List (String × String))

/-- Dict lookup `self.url_queue[server]` (empty for an absent key; the code
only looks up keys that are present). -/
def lookupQ : QTable → String → List (String × String)
  | [], _ => []
  | e :: rest, server => if e.1 == server then e.2 else lookupQ rest server

/-- In-place head removal `self.url_queue[server].pop(0)`. -/
def popQ : QTable → String → QTable
  | [], _ => []
  | e :: rest, server =>
      (if e.1 == server then (e.1, e.2.tail) else e) :: popQ rest server

/-- Total number of queued tasks across all servers. -/
def totalQ : QTable → Nat
  | [] => 0
  | e :: rest => e.2.length + totalQ rest

/-- The dict update in `add_package`: create the key if absent, then append
the pair to its list. -/
def appendQ : QTable → String → (String × String) → QTable
  | [], server, item => [(server, [item])]
  | e :: rest, server, item =>
      if e.1 == server then (e.1, e.2 ++ [item]) :: rest
      else e :: appendQ rest server item

/-- The state a `MultiThread` object carries between `add_package` calls:
`self.url_queue` and `self.npackages`. -/
structure MultiThread where
  url_queue : QTable
  npackages : Nat
deriving DecidableEq

/-- Fresh object from `MultiThread.__init__`: empty queue table, zero
packages. -/
def emptyMT : MultiThread := { url_queue := [], npackages := 0 }

/-- `MultiThread.add_package(remote, local)`: derive the server from the
remote URI (`urlparse(remote).netloc`, supplied as the external function
`netloc`), append the task to that server queue, count the package. -/
def add_package (netloc : String → String) (mt : MultiThread)
    (remote loc : String) : MultiThread :=
  { url_queue := appendQ mt.url_queue (netloc remote) (remote, loc),
    npackages := mt.npackages + 1 }

/-- The run state of one `fetch_packages` call: the queue table, the ready
multiset `serverlist`, the idle pool `curllist`, the handles added to the
multi object (`inflight`), the four counters, plus the ghost trace. -/
structure RS where
  url_queue : QTable
  serverlist : List String
  curllist : List Curl
  inflight : List Curl
  processed : Nat
  active : Nat
  success : Nat
  failed : Nat
  npackages : Nat
  events : List Event
  nextFp : Nat
deriving DecidableEq

/-- The handle ring built in `__init__`: `max_threads` fresh handles with
`sc.fp = None` (task fields unset; they are written before first read). -/
def mkHandles (max_threads : Nat) : List Curl :=
  (List.range max_threads).map
    (fun i => { id := i, fp := none, remote := "", loc := "", server := "" })

/-- The initial `serverlist` built at the top of `fetch_packages`: each
server contributes `min(threads_per_server, len(queue))` copies of itself. -/
def buildServerlist (threads_per_server : Nat) : QTable → List String
  | [] => []
  | e :: rest =>
      List.replicate (min threads_per_server e.2.length) e.1
        ++ buildServerlist threads_per_server rest

/-- The state at the top of the download loop of `fetch_packages`:
`curllist = self.mc.handles[:]`, the built `serverlist`, all counters zero. -/
def mkInit (max_threads threads_per_server : Nat) (mt : MultiThread) : RS :=
  { url_queue := mt.url_queue,
    serverlist := buildServerlist threads_per_server mt.url_queue,
    curllist := mkHandles max_threads,
    inflight := [],
    processed := 0, active := 0, success := 0, failed := 0,
    npackages := mt.npackages,
    events := [], nextFp := 0 }

/-- Effect of popping a `serverlist` entry whose queue is empty: the
`continue` branch of the admission loop. -/
def skipUpd (s : RS) (rest : List String) : RS :=
  { s with serverlist := rest }

/-- Effect of one successful admission: dequeue the head task, pop the idle
handle `sc`, open the output file (fresh id `s.nextFp`), set the url, add
the handle to the multi object, bump `active`, record the task fields. -/
def launchUpd (s : RS) (srv remote loc : String) (sc : Curl)
    (cs : List Curl) (rest : List String) : RS :=
  { s with
    url_queue := popQ s.url_queue srv,
    serverlist := rest,
    curllist := cs,
    inflight := s.inflight
      ++ [{ id := sc.id, fp := some s.nextFp, remote := remote, loc := loc,
            server := srv }],
    active := s.active + 1,
    events := s.events ++ [Event.launch srv remote loc s.nextFp],
    nextFp := s.nextFp + 1 }

/-- State at the instant `open(local, 'wb')` raises: the serverlist entry,
the queue head and the idle handle are already popped, nothing else
happened. -/
def abortUpd (s : RS) (srv : String) (cs : List Curl)
    (rest : List String) : RS :=
  { s with
    url_queue := popQ s.url_queue srv,
    serverlist := rest,
    curllist := cs }

/-- Result of the admission loop: finished normally, or aborted because an
output file could not be opened (the raised path and the state at the
raise). -/
inductive AdmitResult where
  | ok (s : RS)
  | openFail (loc : String) (s : RS)
deriving DecidableEq

/-- The admission loop `while curllist and serverlist` of `fetch_packages`,
recursing on the `serverlist` being consumed (kept in sync with
`s.serverlist`): pop a server; skip it if its queue is empty; otherwise
dequeue its head task and bind it to the popped idle handle. -/
def admissionGo (fsOpen : String → Bool) : List String → RS → AdmitResult
  | [], s => .ok s
  | srv :: rest, s =>
    match s.curllist with
    | [] => .ok s
    | sc :: cs =>
      match lookupQ s.url_queue srv with
      | [] => admissionGo fsOpen rest (skipUpd s rest)
      | (remote, loc) :: _ =>
        if fsOpen loc then
          admissionGo fsOpen rest (launchUpd s srv remote loc sc cs rest)
        else
          .openFail loc (abortUpd s srv cs rest)

/-- The admission phase of one round of the download loop. -/
def admissionLoop (fsOpen : String → Bool) (s : RS) : AdmitResult :=
  admissionGo fsOpen s.serverlist s

/-- A handle with its output file closed (`sc.fp.close(); sc.fp = None`). -/
def clearFp (sc : Curl) : Curl := { sc with fp := none }

/-- The fp id recorded on a close event (`sc.fp` is always open for an
in-flight handle). -/
def fpVal (sc : Curl) : Nat := sc.fp.getD 0

/-- Processing of one finished handle inside the reap loop: close its file,
remove it from the multi object, restore the server slot when that server
still has queued work, return the handle to the idle pool, record the
completion. -/
def reapOne (ok : Bool) (s : RS) (sc : Curl) : RS :=
  { s with
    inflight := s.inflight.eraseP (fun c => c.id == sc.id),
    curllist := s.curllist ++ [clearFp sc],
    serverlist :=
      if 0 < (lookupQ s.url_queue sc.server).length then
        s.serverlist ++ [sc.server]
      else s.serverlist,
    events := s.events
      ++ [Event.complete sc.server sc.remote sc.loc ok (fpVal sc)] }

/-- The successfully finished handles reported by `info_read` this round. -/
def okList (d : Nat → Option Bool) (s : RS) : List Curl :=
  s.inflight.filter (fun c => d c.id == some true)

/-- The failed handles reported by `info_read` this round. -/
def errList (d : Nat → Option Bool) (s : RS) : List Curl :=
  s.inflight.filter (fun c => d c.id == some false)

/-- One reap phase (`info_read` drained in one batch): process the ok list,
then the err list, then update the four counters exactly as lines 261-264 of
the source do. -/
def reapStep (d : Nat → Option Bool) (s : RS) : RS :=
  let ok_list := okList d s
  let err_list := errList d s
  let s2 := err_list.foldl (reapOne false) (ok_list.foldl (reapOne true) s)
  { s2 with
    success := s2.success + ok_list.length,
    failed := s2.failed + err_list.length,
    active := s2.active - ok_list.length - err_list.length,
    processed := (s2.failed + err_list.length) + (s2.success + ok_list.length) }

/-- The cleanup after the download loop: for every handle still holding an
open file, close it (the idle pool and the in-flight list together are the
whole ring `self.mc.handles`). -/
def teardown (s : RS) : RS :=
  let handles := s.curllist ++ s.inflight
  { s with
    events := s.events
      ++ (handles.filterMap (fun c => c.fp)).map Event.closeTeardown,
    curllist := handles.map clearFp,
    inflight := [] }

/-- Result of a `fetch_packages` run: normal return, abort with the path
whose `open` raised, or fuel exhausted (transfers that never complete). -/
inductive FetchResult where
  | ok (s : RS)
  | ioFail (loc : String) (s : RS)
  | outOfFuel (s : RS)
deriving DecidableEq

/-- The run state carried by any `FetchResult`. -/
def stateOf : FetchResult → RS
  | .ok s => s
  | .ioFail _ s => s
  | .outOfFuel s => s

/-- Whether the run aborted in the `open` call. -/
def isIoFail : FetchResult → Bool
  | .ioFail _ _ => true
  | _ => false

/-- The outer `while processed < self.npackages` loop: admission, transport
progress (`perform`, a no-op on the scheduler state), one reap batch, then
loop; on exit, teardown. -/
def fetchLoop (fsOpen : String → Bool) (oracle : Nat → Nat → Option Bool) :
    Nat → Nat → RS → FetchResult
  | fuel, t, s =>
    if s.processed < s.npackages then
      match fuel with
      | 0 => .outOfFuel s
      | fuel' + 1 =>
        match admissionLoop fsOpen s with
        | .openFail loc se => .ioFail loc se
        | .ok s1 => fetchLoop fsOpen oracle fuel' (t + 1) (reapStep (oracle t) s1)
    else .ok (teardown s)

/-- `MultiThread.fetch_packages` on an object holding `mt`, with the
configured caps, the file-system behaviour, the transport oracle, and
fuel for the outer loop. -/
def fetch_packages (fsOpen : String → Bool) (oracle : Nat → Nat → Option Bool)
    (fuel max_threads threads_per_server : Nat) (mt : MultiThread) :
    FetchResult :=
  fetchLoop fsOpen oracle fuel 0 (mkInit max_threads threads_per_server mt)

/-- Number of `serverlist` entries naming server `S`. -/
def countS (l : List String) (S : String) : Nat :=
  (l.filter (fun x => x == S)).length

/-- Number of in-flight handles bound to tasks of server `S`. -/
def inflightCount (s : RS) (S : String) : Nat :=
  (s.inflight.filter (fun c => c.server == S)).length

/-- The `(remote, local)` tasks of server `S` currently in flight, in launch
order. -/
def inflightT (s : RS) (S : String) : List (String × String) :=
  (s.inflight.filter (fun c => c.server == S)).map (fun c => (c.remote, c.loc))

/-- The fp ids of the files held open by in-flight handles. -/
def inflightFps (s : RS) : List Nat :=
  s.inflight.filterMap (fun c => c.fp)

/-- The fp id opened by a launch event. -/
def openFpOf : Event → Option Nat
  | .launch _ _ _ fp => some fp
  | _ => none

/-- The fp id closed by a completion or teardown event. -/
def closeFpOf : Event → Option Nat
  | .complete _ _ _ _ fp => some fp
  | .closeTeardown fp => some fp
  | _ => none

/-- All fp ids ever opened, in order. -/
def opensOf (evs : List Event) : List Nat := evs.filterMap openFpOf

/-- All fp ids ever closed, in order. -/
def closesOf (evs : List Event) : List Nat := evs.filterMap closeFpOf

/-- The tasks of server `S` launched so far, in launch order. -/
def launchedOf (evs : List Event) (S : String) : List (String × String) :=
  evs.filterMap (fun e =>
    match e with
    | .launch srv r l _ => if srv == S then some (r, l) else none
    | _ => none)

/-- The tasks of server `S` whose transfers completed (either way) so far,
in completion order. -/
def completedOf (evs : List Event) (S : String) : List (String × String) :=
  evs.filterMap (fun e =>
    match e with
    | .complete srv r l _ _ => if srv == S then some (r, l) else none
    | _ => none)

/-- A `MultiThread` object as produced by a sequence of `add_package` calls:
the package count matches the queued tasks and no server key repeats. -/
abbrev WF (mt : MultiThread) : Prop :=
  totalQ mt.url_queue = mt.npackages ∧ (mt.url_queue.map Prod.fst).Nodup

/-- One scheduler micro-step: an empty-queue skip, one admission launch, or
one reap batch.  Every instant of a `fetch_packages` run is reached from
the initial state by these steps. -/
inductive MStep (fsOpen : String → Bool) : RS → RS → Prop where
  | skip (s : RS) (srv : String) (rest : List String)
      (hs : s.serverlist = srv :: rest) (hc : s.curllist ≠ [])
      (hq : lookupQ s.url_queue srv = []) :
      MStep fsOpen s (skipUpd s rest)
  | launch (s : RS) (srv remote loc : String) (tl : List (String × String))
      (sc : Curl) (cs : List Curl) (rest : List String)
      (hs : s.serverlist = srv :: rest) (hc : s.curllist = sc :: cs)
      (hq : lookupQ s.url_queue srv = (remote, loc) :: tl)
      (hopen : fsOpen loc = true) :
      MStep fsOpen s (launchUpd s srv remote loc sc cs rest)
  | reap (s : RS) (d : Nat → Option Bool) :
      MStep fsOpen s (reapStep d s)

/-- Reachability along scheduler micro-steps. -/
def Reach (fsOpen : String → Bool) : RS → RS → Prop :=
  Relation.ReflTransGen (MStep fsOpen)

end YumMT

namespace YumMT

theorem lookupQ_not_mem {q : QTable} {S : String} (h : S ∉ q.map Prod.fst) :
    lookupQ q S = [] := by
  induction q with
  | nil => rfl
  | cons e rest ih =>
    simp only [List.map_cons, List.mem_cons, not_or] at h
    have hne : (e.1 == S) = false := by
      rw [beq_eq_false_iff_ne]
      exact fun hh => h.1 hh.symm
    simpa [lookupQ, hne] using ih h.2

theorem popQ_not_mem {q : QTable} {S : String} (h : S ∉ q.map Prod.fst) :
    popQ q S = q := by
  induction q with
  | nil => rfl
  | cons e rest ih =>
    simp only [List.map_cons, List.mem_cons, not_or] at h
    have hne : (e.1 == S) = false := by
      rw [beq_eq_false_iff_ne]
      exact fun hh => h.1 hh.symm
    simp [popQ, hne, ih h.2]

theorem keys_popQ (q : QTable) (S : String) :
    (popQ q S).map Prod.fst = q.map Prod.fst := by
  induction q with
  | nil => rfl
  | cons e rest ih =>
    by_cases hk : e.1 == S <;> simp [popQ, hk, ih]

theorem lookupQ_popQ_self (q : QTable) (S : String) :
    lookupQ (popQ q S) S = (lookupQ q S).tail := by
  induction q with
  | nil => rfl
  | cons e rest ih =>
    by_cases hk : e.1 == S <;> simp [popQ, lookupQ, hk, ih]

theorem lookupQ_popQ_ne (q : QTable) {S T : String} (h : T ≠ S) :
    lookupQ (popQ q S) T = lookupQ q T := by
  induction q with
  | nil => rfl
  | cons e rest ih =>
    by_cases hk : e.1 == S
    · have hS : e.1 = S := by rwa [beq_iff_eq] at hk
      have hTk : (e.1 == T) = false := by
        rw [beq_eq_false_iff_ne]
        rw [hS]
        exact fun hh => h hh.symm
      simp [popQ, lookupQ, hk, hTk, ih]
    · by_cases hT : e.1 == T <;> simp [popQ, lookupQ, hk, hT, ih]

theorem totalQ_popQ {q : QTable} {S : String}
    (hnd : (q.map Prod.fst).Nodup) (hne : lookupQ q S ≠ []) :
    totalQ q = totalQ (popQ q S) + 1 := by
  induction q with
  | nil => exact absurd rfl hne
  | cons e rest ih =>
    simp only [List.map_cons, List.nodup_cons] at hnd
    by_cases hk : e.1 == S
    · have hS : e.1 = S := by rwa [beq_iff_eq] at hk
      have hrest : popQ rest S = rest := popQ_not_mem (hS ▸ hnd.1)
      have hlen : e.2 ≠ [] := by simpa [lookupQ, hk] using hne
      have hpos : 0 < e.2.length := List.length_pos.mpr hlen
      have h2 : e.2.tail.length = e.2.length - 1 := List.length_tail e.2
      simp only [totalQ, popQ, hk, if_true, hrest]
      omega
    · have hne2 : lookupQ rest S ≠ [] := by simpa [lookupQ, hk] using hne
      have h2 := ih hnd.2 hne2
      simp only [totalQ, popQ, hk, if_false, Bool.false_eq_true]
      omega

theorem countS_nil (S : String) : countS [] S = 0 := rfl

theorem countS_append (l₁ l₂ : List String) (S : String) :
    countS (l₁ ++ l₂) S = countS l₁ S + countS l₂ S := by
  simp [countS, List.filter_append]

theorem countS_cons (x : String) (l : List String) (S : String) :
    countS (x :: l) S = (if x == S then 1 else 0) + countS l S := by
  by_cases h : x == S <;> simp [countS, List.filter_cons, h] <;> omega

theorem countS_replicate (n : Nat) (a S : String) :
    countS (List.replicate n a) S = if a == S then n else 0 := by
  induction n with
  | zero => simp [countS]
  | succ k ih =>
    rw [List.replicate_succ, countS_cons, ih]
    by_cases h : a == S <;> simp [h] <;> omega

theorem buildServerlist_not_mem {q : QTable} {S : String}
    (h : S ∉ q.map Prod.fst) (tps : Nat) :
    countS (buildServerlist tps q) S = 0 := by
  induction q with
  | nil => rfl
  | cons e rest ih =>
    simp only [List.map_cons, List.mem_cons, not_or] at h
    have hne : (e.1 == S) = false := by
      rw [beq_eq_false_iff_ne]
      exact fun hh => h.1 hh.symm
    rw [buildServerlist, countS_append, countS_replicate, hne, ih h.2]
    simp

theorem buildServerlist_count {q : QTable} (tps : Nat) (S : String)
    (hnd : (q.map Prod.fst).Nodup) :
    countS (buildServerlist tps q) S = min tps (lookupQ q S).length := by
  induction q with
  | nil => simp [buildServerlist, countS, lookupQ]
  | cons e rest ih =>
    simp only [List.map_cons, List.nodup_cons] at hnd
    rw [buildServerlist, countS_append, countS_replicate]
    by_cases hk : e.1 == S
    · have hS : e.1 = S := by rwa [beq_iff_eq] at hk
      rw [buildServerlist_not_mem (hS ▸ hnd.1) tps]
      simp [lookupQ, hk]
    · rw [ih hnd.2]
      simp [lookupQ, hk]

end YumMT

namespace YumMT

theorem appendQ_keys_mem {q : QTable} {S : String} (h : S ∈ q.map Prod.fst)
    (it : String × String) :
    (appendQ q S it).map Prod.fst = q.map Prod.fst := by
  induction q with
  | nil => simp at h
  | cons e rest ih =>
    by_cases hk : e.1 == S
    · simp [appendQ, hk]
    · have hS : S ∈ rest.map Prod.fst := by
        have hne : e.1 ≠ S := by rwa [← beq_eq_false_iff_ne, ← Bool.not_eq_true]
        simp only [List.map_cons, List.mem_cons] at h
        exact h.resolve_left (fun hh => hne hh.symm)
      simp [appendQ, hk, ih hS]

theorem appendQ_keys_not_mem {q : QTable} {S : String}
    (h : S ∉ q.map Prod.fst) (it : String × String) :
    (appendQ q S it).map Prod.fst = q.map Prod.fst ++ [S] := by
  induction q with
  | nil => simp [appendQ]
  | cons e rest ih =>
    simp only [List.map_cons, List.mem_cons, not_or] at h
    have hne : (e.1 == S) = false := by
      rw [beq_eq_false_iff_ne]
      exact fun hh => h.1 hh.symm
    simp [appendQ, hne, ih h.2]

theorem totalQ_appendQ (q : QTable) (S : String) (it : String × String) :
    totalQ (appendQ q S it) = totalQ q + 1 := by
  induction q with
  | nil => simp [appendQ, totalQ]
  | cons e rest ih =>
    by_cases hk : e.1 == S
    · simp [appendQ, hk, totalQ]
      omega
    · simp [appendQ, hk, totalQ, ih]
      omega

/-- Building an object by `add_package` calls preserves well-formedness. -/
theorem WF_add_package (netloc : String → String) {mt : MultiThread}
    (h : WF mt) (remote loc : String) :
    WF (add_package netloc mt remote loc) := by
  constructor
  · rw [add_package]
    simp only
    rw [totalQ_appendQ, h.1]
  · rw [add_package]
    simp only
    by_cases hmem : netloc remote ∈ mt.url_queue.map Prod.fst
    · rw [appendQ_keys_mem hmem]
      exact h.2
    · rw [appendQ_keys_not_mem hmem]
      rw [List.nodup_append]
      refine ⟨h.2, List.nodup_singleton _, ?_⟩
      intro a ha hb
      simp only [List.mem_singleton] at hb
      exact hmem (hb ▸ ha)

/-- A fresh `MultiThread` object is well formed. -/
theorem WF_emptyMT : WF emptyMT := ⟨rfl, List.nodup_nil⟩

theorem launchedOf_append (a b : List Event) (S : String) :
    launchedOf (a ++ b) S = launchedOf a S ++ launchedOf b S := by
  simp [launchedOf, List.filterMap_append]

theorem completedOf_append (a b : List Event) (S : String) :
    completedOf (a ++ b) S = completedOf a S ++ completedOf b S := by
  simp [completedOf, List.filterMap_append]

theorem opensOf_append (a b : List Event) :
    opensOf (a ++ b) = opensOf a ++ opensOf b := by
  simp [opensOf, List.filterMap_append]

theorem closesOf_append (a b : List Event) :
    closesOf (a ++ b) = closesOf a ++ closesOf b := by
  simp [closesOf, List.filterMap_append]

theorem launchedOf_launch (srv r l : String) (fp : Nat) (S : String) :
    launchedOf [Event.launch srv r l fp] S
      = if srv == S then [(r, l)] else [] := by
  by_cases h : srv == S <;> simp [launchedOf, List.filterMap, h]

theorem completedOf_launch (srv r l : String) (fp : Nat) (S : String) :
    completedOf [Event.launch srv r l fp] S = [] := by
  simp [completedOf, List.filterMap]

theorem opensOf_launch (srv r l : String) (fp : Nat) :
    opensOf [Event.launch srv r l fp] = [fp] := by
  simp [opensOf, List.filterMap, openFpOf]

theorem closesOf_launch (srv r l : String) (fp : Nat) :
    closesOf [Event.launch srv r l fp] = [] := by
  simp [closesOf, List.filterMap, closeFpOf]

theorem completedOf_completes (l : List Curl) (ok : Bool) (S : String) :
    completedOf (l.map (fun c =>
        Event.complete c.server c.remote c.loc ok (fpVal c))) S
      = (l.filter (fun c => c.server == S)).map (fun c => (c.remote, c.loc)) := by
  induction l with
  | nil => rfl
  | cons c t ih =>
    by_cases h : c.server == S <;>
      simp [completedOf, List.filterMap, h, List.filter_cons] at ih ⊢ <;>
      exact ih

theorem launchedOf_completes (l : List Curl) (ok : Bool) (S : String) :
    launchedOf (l.map (fun c =>
        Event.complete c.server c.remote c.loc ok (fpVal c))) S = [] := by
  induction l with
  | nil => rfl
  | cons c t ih => simpa [launchedOf, List.filterMap] using ih

theorem opensOf_completes (l : List Curl) (ok : Bool) :
    opensOf (l.map (fun c =>
        Event.complete c.server c.remote c.loc ok (fpVal c))) = [] := by
  induction l with
  | nil => rfl
  | cons c t ih => simpa [opensOf, List.filterMap, openFpOf] using ih

theorem closesOf_completes (l : List Curl) (ok : Bool) :
    closesOf (l.map (fun c =>
        Event.complete c.server c.remote c.loc ok (fpVal c)))
      = l.map fpVal := by
  induction l with
  | nil => rfl
  | cons c t ih => simpa [closesOf, List.filterMap, closeFpOf] using ih

theorem closesOf_teardowns (fps : List Nat) :
    closesOf (fps.map Event.closeTeardown) = fps := by
  induction fps with
  | nil => rfl
  | cons c t ih => simpa [closesOf, List.filterMap, closeFpOf] using ih

theorem opensOf_teardowns (fps : List Nat) :
    opensOf (fps.map Event.closeTeardown) = [] := by
  induction fps with
  | nil => rfl
  | cons c t ih => simpa [opensOf, List.filterMap, openFpOf] using ih

end YumMT

namespace YumMT

/-- The handles a reap round leaves on the multi object. -/
def remList (d : Nat → Option Bool) (s : RS) : List Curl :=
  s.inflight.filter (fun c => d c.id == none)

theorem tri_perm (d : Nat → Option Bool) (l : List Curl) :
    (l.filter (fun c => d c.id == some true)
      ++ l.filter (fun c => d c.id == some false)
      ++ l.filter (fun c => d c.id == none)).Perm l := by
  have h1 := List.filter_append_perm (fun c => d c.id == some true) l
  have h2 := List.filter_append_perm (fun c => d c.id == some false)
      (l.filter (fun c => !(d c.id == some true)))
  rw [List.filter_filter] at h2
  have e1 : l.filter (fun a => (a.id |> d) == some false && !(d a.id == some true))
      = l.filter (fun c => d c.id == some false) := by
    apply List.filter_congr
    intro x _
    cases hdx : d x.id with
    | none => simp
    | some b => cases b <;> simp
  have e2 : (l.filter (fun c => !(d c.id == some true))).filter
        (fun a => !(d a.id == some false))
      = l.filter (fun c => d c.id == none) := by
    rw [List.filter_filter]
    apply List.filter_congr
    intro x _
    cases hdx : d x.id with
    | none => simp
    | some b => cases b <;> simp
  rw [e1, e2] at h2
  have := (List.Perm.append_left
      (l.filter (fun c => d c.id == some true)) h2).trans h1
  simpa [List.append_assoc] using this

theorem tri_len (d : Nat → Option Bool) (s : RS) :
    (okList d s).length + (errList d s).length + (remList d s).length
      = s.inflight.length := by
  have h := (tri_perm d s.inflight).length_eq
  simp only [List.length_append] at h
  simp only [okList, errList, remList]
  omega

theorem eraseFold_cons (batch : List Curl) (x : Curl) (l : List Curl)
    (h : ∀ b ∈ batch, b.id ≠ x.id) :
    batch.foldl (fun acc c => acc.eraseP (fun y => y.id == c.id)) (x :: l)
      = x :: batch.foldl (fun acc c => acc.eraseP (fun y => y.id == c.id)) l := by
  induction batch generalizing l with
  | nil => rfl
  | cons b t ih =>
    have hb : (x.id == b.id) = false := by
      rw [beq_eq_false_iff_ne]
      exact (h b (List.mem_cons_self b t)).symm
    simp only [List.foldl_cons, List.eraseP_cons, hb, cond_false]
    exact ih _ (fun b2 hb2 => h b2 (List.mem_cons_of_mem _ hb2))

theorem eraseFold_filter (p : Curl → Bool) (l : List Curl)
    (hnd : (l.map (fun c => c.id)).Nodup) :
    (l.filter p).foldl (fun acc c => acc.eraseP (fun y => y.id == c.id)) l
      = l.filter (fun c => !(p c)) := by
  induction l with
  | nil => rfl
  | cons x t ih =>
    simp only [List.map_cons, List.nodup_cons] at hnd
    by_cases hx : p x
    · rw [List.filter_cons_of_pos hx, List.foldl_cons]
      simp only [List.eraseP_cons, beq_self_eq_true, cond_true]
      rw [ih hnd.2, List.filter_cons_of_neg (by simp [hx])]
    · rw [List.filter_cons_of_neg hx,
        List.filter_cons_of_pos (by simp [hx]),
        eraseFold_cons _ x t ?side, ih hnd.2]
      case side =>
        intro b hb
        have hmem : b.id ∈ t.map (fun c => c.id) :=
          List.mem_map_of_mem _ (List.mem_of_mem_filter hb)
        exact fun hh => hnd.1 (hh ▸ hmem)

theorem reapFold_url_queue (ok : Bool) (batch : List Curl) (s : RS) :
    (batch.foldl (reapOne ok) s).url_queue = s.url_queue := by
  induction batch generalizing s with
  | nil => rfl
  | cons c t ih => rw [List.foldl_cons, ih]; rfl

theorem reapFold_success (ok : Bool) (batch : List Curl) (s : RS) :
    (batch.foldl (reapOne ok) s).success = s.success := by
  induction batch generalizing s with
  | nil => rfl
  | cons c t ih => rw [List.foldl_cons, ih]; rfl

theorem reapFold_failed (ok : Bool) (batch : List Curl) (s : RS) :
    (batch.foldl (reapOne ok) s).failed = s.failed := by
  induction batch generalizing s with
  | nil => rfl
  | cons c t ih => rw [List.foldl_cons, ih]; rfl

theorem reapFold_active (ok : Bool) (batch : List Curl) (s : RS) :
    (batch.foldl (reapOne ok) s).active = s.active := by
  induction batch generalizing s with
  | nil => rfl
  | cons c t ih => rw [List.foldl_cons, ih]; rfl

theorem reapFold_processed (ok : Bool) (batch : List Curl) (s : RS) :
    (batch.foldl (reapOne ok) s).processed = s.processed := by
  induction batch generalizing s with
  | nil => rfl
  | cons c t ih => rw [List.foldl_cons, ih]; rfl

theorem reapFold_nextFp (ok : Bool) (batch : List Curl) (s : RS) :
    (batch.foldl (reapOne ok) s).nextFp = s.nextFp := by
  induction batch generalizing s with
  | nil => rfl
  | cons c t ih => rw [List.foldl_cons, ih]; rfl

theorem reapFold_npackages (ok : Bool) (batch : List Curl) (s : RS) :
    (batch.foldl (reapOne ok) s).npackages = s.npackages := by
  induction batch generalizing s with
  | nil => rfl
  | cons c t ih => rw [List.foldl_cons, ih]; rfl

theorem reapFold_curllist (ok : Bool) (batch : List Curl) (s : RS) :
    (batch.foldl (reapOne ok) s).curllist
      = s.curllist ++ batch.map clearFp := by
  induction batch generalizing s with
  | nil => simp
  | cons c t ih =>
    rw [List.foldl_cons, ih]
    simp [reapOne, List.append_assoc]

theorem reapFold_events (ok : Bool) (batch : List Curl) (s : RS) :
    (batch.foldl (reapOne ok) s).events
      = s.events ++ batch.map (fun c =>
          Event.complete c.server c.remote c.loc ok (fpVal c)) := by
  induction batch generalizing s with
  | nil => simp
  | cons c t ih =>
    rw [List.foldl_cons, ih]
    simp [reapOne, List.append_assoc]

theorem reapFold_serverlist (ok : Bool) (batch : List Curl) (s : RS) :
    (batch.foldl (reapOne ok) s).serverlist
      = s.serverlist
        ++ (batch.filter
              (fun c => 0 < (lookupQ s.url_queue c.server).length)).map
            (fun c => c.server) := by
  induction batch generalizing s with
  | nil => simp
  | cons c t ih =>
    rw [List.foldl_cons, ih]
    have hq : (reapOne ok s c).url_queue = s.url_queue := rfl
    rw [hq]
    by_cases hc : 0 < (lookupQ s.url_queue c.server).length
    · rw [List.filter_cons_of_pos (by simpa using hc)]
      simp [reapOne, hc, List.append_assoc]
    · rw [List.filter_cons_of_neg (by simpa using hc)]
      simp [reapOne, hc]

theorem reapFold_inflight (ok : Bool) (batch : List Curl) (s : RS) :
    (batch.foldl (reapOne ok) s).inflight
      = batch.foldl (fun acc c => acc.eraseP (fun y => y.id == c.id))
          s.inflight := by
  induction batch generalizing s with
  | nil => rfl
  | cons c t ih => rw [List.foldl_cons, List.foldl_cons, ih]; rfl

end YumMT

namespace YumMT

theorem reapStep_url_queue (d : Nat → Option Bool) (s : RS) :
    (reapStep d s).url_queue = s.url_queue := by
  simp only [reapStep]
  rw [reapFold_url_queue, reapFold_url_queue]

theorem reapStep_success (d : Nat → Option Bool) (s : RS) :
    (reapStep d s).success = s.success + (okList d s).length := by
  simp only [reapStep]
  rw [reapFold_success, reapFold_success]

theorem reapStep_failed (d : Nat → Option Bool) (s : RS) :
    (reapStep d s).failed = s.failed + (errList d s).length := by
  simp only [reapStep]
  rw [reapFold_failed, reapFold_failed]

theorem reapStep_active (d : Nat → Option Bool) (s : RS) :
    (reapStep d s).active
      = s.active - (okList d s).length - (errList d s).length := by
  simp only [reapStep]
  rw [reapFold_active, reapFold_active]

theorem reapStep_processed (d : Nat → Option Bool) (s : RS) :
    (reapStep d s).processed
      = (s.failed + (errList d s).length) + (s.success + (okList d s).length) := by
  simp only [reapStep]
  rw [reapFold_failed, reapFold_failed, reapFold_success, reapFold_success]

theorem reapStep_nextFp (d : Nat → Option Bool) (s : RS) :
    (reapStep d s).nextFp = s.nextFp := by
  simp only [reapStep]
  rw [reapFold_nextFp, reapFold_nextFp]

theorem reapStep_npackages (d : Nat → Option Bool) (s : RS) :
    (reapStep d s).npackages = s.npackages := by
  simp only [reapStep]
  rw [reapFold_npackages, reapFold_npackages]

theorem reapStep_curllist (d : Nat → Option Bool) (s : RS) :
    (reapStep d s).curllist
      = s.curllist ++ (okList d s).map clearFp ++ (errList d s).map clearFp := by
  simp only [reapStep]
  rw [reapFold_curllist, reapFold_curllist]

theorem reapStep_events (d : Nat → Option Bool) (s : RS) :
    (reapStep d s).events
      = s.events
        ++ (okList d s).map (fun c =>
              Event.complete c.server c.remote c.loc true (fpVal c))
        ++ (errList d s).map (fun c =>
              Event.complete c.server c.remote c.loc false (fpVal c)) := by
  simp only [reapStep]
  rw [reapFold_events, reapFold_events]

theorem reapStep_serverlist (d : Nat → Option Bool) (s : RS) :
    (reapStep d s).serverlist
      = s.serverlist
        ++ ((okList d s).filter
              (fun c => 0 < (lookupQ s.url_queue c.server).length)).map
            (fun c => c.server)
        ++ ((errList d s).filter
              (fun c => 0 < (lookupQ s.url_queue c.server).length)).map
            (fun c => c.server) := by
  simp only [reapStep]
  rw [reapFold_serverlist, reapFold_url_queue, reapFold_serverlist]

theorem reapStep_inflight (d : Nat → Option Bool) (s : RS)
    (hnd : (s.inflight.map (fun c => c.id)).Nodup) :
    (reapStep d s).inflight = remList d s := by
  simp only [reapStep]
  rw [reapFold_inflight, reapFold_inflight]
  simp only [okList, errList]
  rw [eraseFold_filter _ _ hnd]
  have hnd2 : ((s.inflight.filter
        (fun c => !(d c.id == some true))).map (fun c => c.id)).Nodup :=
    List.Nodup.sublist (List.Sublist.map _ (List.filter_sublist _)) hnd
  have herr : s.inflight.filter (fun c => d c.id == some false)
      = (s.inflight.filter (fun c => !(d c.id == some true))).filter
          (fun c => d c.id == some false) := by
    rw [List.filter_filter]
    refine (List.filter_congr ?_).symm
    intro x _
    cases hdx : d x.id with
    | none => simp
    | some b => cases b <;> simp
  rw [herr, eraseFold_filter _ _ hnd2, List.filter_filter]
  simp only [remList]
  apply List.filter_congr
  intro x _
  cases hdx : d x.id with
  | none => simp
  | some b => cases b <;> simp

end YumMT

namespace YumMT

theorem countS_map_server (l : List Curl) (S : String) :
    countS (l.map (fun c => c.server)) S
      = (l.filter (fun c => c.server == S)).length := by
  induction l with
  | nil => rfl
  | cons c t ih =>
    rw [List.map_cons, countS_cons, ih, List.filter_cons]
    by_cases h : c.server == S <;> simp [h] <;> omega

theorem fps_of_all_some {l : List Curl}
    (h : ∀ c ∈ l, (c.fp).isSome = true) :
    l.filterMap (fun c => c.fp) = l.map fpVal := by
  induction l with
  | nil => rfl
  | cons c t ih =>
    have hc := h c (List.mem_cons_self c t)
    cases hx : c.fp with
    | none => rw [hx] at hc; simp at hc
    | some v =>
      have ht := ih (fun x hxm => h x (List.mem_cons_of_mem _ hxm))
      simp [List.filterMap_cons, List.map_cons, hx, fpVal, ht]

/-- The run invariant of `fetch_packages`, relative to the configured caps
and the queue table `q0` at the start of the run. -/
structure Inv (maxT tps : Nat) (q0 : QTable) (s : RS) : Prop where
  counters : s.processed = s.success + s.failed
  conserve : s.processed + s.active + totalQ s.url_queue = s.npackages
  act_len : s.active = s.inflight.length
  workers : s.curllist.length + s.inflight.length = maxT
  ids_nodup : ((s.curllist ++ s.inflight).map (fun c => c.id)).Nodup
  server_cap : ∀ S, countS s.serverlist S + inflightCount s S ≤ tps
  launch_queue : ∀ S,
      launchedOf s.events S ++ lookupQ s.url_queue S = lookupQ q0 S
  keys_eq : s.url_queue.map Prod.fst = q0.map Prod.fst
  keys_nd : (q0.map Prod.fst).Nodup
  npack : s.npackages = totalQ q0
  idle_closed : ∀ c ∈ s.curllist, c.fp = none
  live_open : ∀ c ∈ s.inflight, (c.fp).isSome = true
  fp_perm : (closesOf s.events ++ inflightFps s).Perm (opensOf s.events)
  opens_lt : ∀ fp ∈ opensOf s.events, fp < s.nextFp
  opens_nd : (opensOf s.events).Nodup

/-- The invariant holds at the top of the download loop. -/
theorem Inv_mkInit (maxT tps : Nat) {mt : MultiThread} (hwf : WF mt) :
    Inv maxT tps mt.url_queue (mkInit maxT tps mt) := by
  refine ⟨rfl, ?_, rfl, ?_, ?_, ?_, ?_, rfl, hwf.2, hwf.1.symm, ?_, ?_, ?_, ?_, ?_⟩
  · simpa [mkInit] using hwf.1
  · simp [mkInit, mkHandles]
  · have hm : ((mkInit maxT tps mt).curllist
        ++ (mkInit maxT tps mt).inflight).map (fun c => c.id)
        = List.range maxT := by
      simp only [mkInit, List.append_nil, mkHandles, List.map_map]
      exact List.map_id' (List.range maxT)
    rw [hm]
    exact List.nodup_range maxT
  · intro S
    have hbs := buildServerlist_count tps S hwf.2
    have h0 : inflightCount (mkInit maxT tps mt) S = 0 := rfl
    have hcs : countS (mkInit maxT tps mt).serverlist S
        = min tps (lookupQ mt.url_queue S).length := hbs
    rw [h0, hcs]
    omega
  · intro S
    simp [mkInit, launchedOf]
  · intro c hc
    simp only [mkInit, mkHandles, List.mem_map, List.mem_range] at hc
    obtain ⟨i, _, rfl⟩ := hc
    rfl
  · intro c hc
    simp [mkInit] at hc
  · simp [mkInit, closesOf, opensOf, inflightFps]
  · intro fp hfp
    simp [mkInit, opensOf] at hfp
  · simp [mkInit, opensOf]

/-- A skip of an exhausted server preserves the invariant. -/
theorem Inv_skip {maxT tps : Nat} {q0 : QTable} {s : RS}
    (inv : Inv maxT tps q0 s) {srv : String} {rest : List String}
    (hs : s.serverlist = srv :: rest) :
    Inv maxT tps q0 (skipUpd s rest) := by
  refine ⟨inv.counters, inv.conserve, inv.act_len, inv.workers,
    inv.ids_nodup, ?_, inv.launch_queue, inv.keys_eq, inv.keys_nd,
    inv.npack, inv.idle_closed, inv.live_open, inv.fp_perm,
    inv.opens_lt, inv.opens_nd⟩
  intro S
  have h := inv.server_cap S
  rw [hs, countS_cons] at h
  have hic : inflightCount (skipUpd s rest) S = inflightCount s S := rfl
  show countS rest S + inflightCount (skipUpd s rest) S ≤ tps
  rw [hic]
  split at h <;> omega

end YumMT

namespace YumMT

/-- One admission launch preserves the invariant. -/
theorem Inv_launch {maxT tps : Nat} {q0 : QTable} {s : RS}
    (inv : Inv maxT tps q0 s) {srv remote loc : String}
    {tl : List (String × String)} {sc : Curl} {cs : List Curl}
    {rest : List String}
    (hs : s.serverlist = srv :: rest) (hc : s.curllist = sc :: cs)
    (hq : lookupQ s.url_queue srv = (remote, loc) :: tl) :
    Inv maxT tps q0 (launchUpd s srv remote loc sc cs rest) := by
  have hknd : (s.url_queue.map Prod.fst).Nodup := by
    rw [inv.keys_eq]; exact inv.keys_nd
  have hlook : lookupQ s.url_queue srv ≠ [] := by rw [hq]; simp
  have htot : totalQ s.url_queue = totalQ (popQ s.url_queue srv) + 1 :=
    totalQ_popQ hknd hlook
  refine ⟨inv.counters, ?_, ?_, ?_, ?_, ?_, ?_, ?_, inv.keys_nd, inv.npack,
    ?_, ?_, ?_, ?_, ?_⟩
  · show s.processed + (s.active + 1) + totalQ (popQ s.url_queue srv)
        = s.npackages
    have h := inv.conserve
    omega
  · simp only [launchUpd, List.length_append, List.length_cons,
      List.length_nil]
    have h := inv.act_len
    omega
  · simp only [launchUpd, List.length_append, List.length_cons,
      List.length_nil]
    have h := inv.workers
    rw [hc] at h
    simp only [List.length_cons] at h
    omega
  · simp only [launchUpd]
    have h0 := inv.ids_nodup
    rw [hc] at h0
    have h1 : ((sc :: cs) ++ s.inflight).map (fun c => c.id)
        = sc.id :: (cs ++ s.inflight).map (fun c => c.id) := by simp
    rw [h1] at h0
    have hp : ((cs ++ (s.inflight
        ++ [({ id := sc.id, fp := some s.nextFp, remote := remote,
               loc := loc, server := srv } : Curl)])).map (fun c => c.id)).Perm
        (sc.id :: (cs ++ s.inflight).map (fun c => c.id)) := by
      simp only [List.map_append, List.map_cons, List.map_nil]
      rw [← List.append_assoc]
      have hcomm := @List.perm_append_comm Nat
        ((cs.map (fun c => c.id)) ++ (s.inflight.map (fun c => c.id)))
        [sc.id]
      simpa using hcomm
    exact hp.symm.nodup h0
  · intro S
    have h := inv.server_cap S
    rw [hs, countS_cons] at h
    have hic : inflightCount (launchUpd s srv remote loc sc cs rest) S
        = inflightCount s S + (if srv == S then 1 else 0) := by
      simp only [launchUpd, inflightCount, List.filter_append,
        List.length_append]
      by_cases hsv : srv == S <;> simp [List.filter_cons, hsv]
    have hsl : (launchUpd s srv remote loc sc cs rest).serverlist = rest :=
      rfl
    rw [hsl, hic]
    by_cases hsv : srv == S <;> simp only [hsv, if_true, if_false] at h ⊢ <;>
      omega
  · intro S
    show launchedOf (s.events ++ [Event.launch srv remote loc s.nextFp]) S
        ++ lookupQ (popQ s.url_queue srv) S = lookupQ q0 S
    rw [launchedOf_append, launchedOf_launch]
    by_cases hsv : srv == S
    · have hSe : srv = S := by rwa [beq_iff_eq] at hsv
      subst hSe
      have h := inv.launch_queue srv
      rw [hq] at h
      rw [if_pos (by simp), lookupQ_popQ_self, hq]
      simpa [List.append_assoc] using h
    · have hne : S ≠ srv := by
        intro hh
        rw [hh] at hsv
        simp at hsv
      rw [if_neg (by simpa using hsv), lookupQ_popQ_ne _ hne]
      simpa using inv.launch_queue S
  · show (popQ s.url_queue srv).map Prod.fst = q0.map Prod.fst
    rw [keys_popQ]
    exact inv.keys_eq
  · intro c hcm
    simp only [launchUpd] at hcm
    have : c ∈ s.curllist := by
      rw [hc]
      exact List.mem_cons_of_mem sc hcm
    exact inv.idle_closed c this
  · intro c hcm
    simp only [launchUpd] at hcm
    rcases List.mem_append.mp hcm with h1 | h2
    · exact inv.live_open c h1
    · rw [List.mem_singleton] at h2
      subst h2
      rfl
  · simp only [launchUpd, inflightFps, List.filterMap_append]
    rw [closesOf_append, closesOf_launch, opensOf_append, opensOf_launch]
    simp only [List.filterMap_cons, List.filterMap_nil, List.append_nil]
    rw [← List.append_assoc]
    exact List.Perm.append_right [s.nextFp] inv.fp_perm
  · intro fp hfp
    simp only [launchUpd] at hfp ⊢
    rw [opensOf_append, opensOf_launch, List.mem_append] at hfp
    rcases hfp with h1 | h2
    · exact Nat.lt_succ_of_lt (inv.opens_lt fp h1)
    · rw [List.mem_singleton] at h2
      rw [h2]
      exact Nat.lt_succ_self _
  · simp only [launchUpd]
    rw [opensOf_append, opensOf_launch, List.nodup_append]
    refine ⟨inv.opens_nd, List.nodup_singleton _, ?_⟩
    intro a ha hb
    rw [List.mem_singleton] at hb
    subst hb
    exact absurd (inv.opens_lt _ ha) (lt_irrefl _)

end YumMT

namespace YumMT

/-- One reap batch preserves the invariant. -/
theorem Inv_reap {maxT tps : Nat} {q0 : QTable} {s : RS}
    (inv : Inv maxT tps q0 s) (d : Nat → Option Bool) :
    Inv maxT tps q0 (reapStep d s) := by
  have hnd_in : (s.inflight.map (fun c => c.id)).Nodup := by
    have h := inv.ids_nodup
    rw [List.map_append, List.nodup_append] at h
    exact h.2.1
  have hin : (reapStep d s).inflight = remList d s :=
    reapStep_inflight d s hnd_in
  have hlen := tri_len d s
  have hact := inv.act_len
  refine ⟨?_, ?_, ?_, ?_, ?_, ?_, ?_, ?_, inv.keys_nd, ?_, ?_, ?_, ?_, ?_, ?_⟩
  · rw [reapStep_processed, reapStep_success, reapStep_failed]
    omega
  · rw [reapStep_processed, reapStep_active, reapStep_url_queue,
      reapStep_npackages]
    have h1 := inv.conserve
    have h2 := inv.counters
    omega
  · rw [reapStep_active, hin]
    omega
  · rw [reapStep_curllist, hin]
    simp only [List.length_append, List.length_map]
    have h := inv.workers
    omega
  · have hmc : ∀ l : List Curl,
        (l.map clearFp).map (fun c => c.id) = l.map (fun c => c.id) := by
      intro l
      rw [List.map_map]
      rfl
    have htri : ((okList d s ++ (errList d s ++ remList d s)).map
        (fun c => c.id)).Perm (s.inflight.map (fun c => c.id)) := by
      apply List.Perm.map
      have h := tri_perm d s.inflight
      simpa [okList, errList, remList, List.append_assoc] using h
    have hge : ((reapStep d s).curllist ++ (reapStep d s).inflight).map
          (fun c => c.id)
        = s.curllist.map (fun c => c.id)
          ++ ((okList d s ++ (errList d s ++ remList d s)).map
              (fun c => c.id)) := by
      rw [reapStep_curllist, hin]
      simp [List.map_append, hmc, List.append_assoc]
    rw [hge]
    have h0 := inv.ids_nodup
    rw [List.map_append] at h0
    exact (List.Perm.append_left _ htri).symm.nodup h0
  · intro S
    have hic : inflightCount (reapStep d s) S
        = ((remList d s).filter (fun c => c.server == S)).length := by
      simp only [inflightCount, hin]
    have hper : ((okList d s ++ (errList d s ++ remList d s)).filter
        (fun c => c.server == S)).Perm
        (s.inflight.filter (fun c => c.server == S)) := by
      apply List.Perm.filter
      have h := tri_perm d s.inflight
      simpa [okList, errList, remList, List.append_assoc] using h
    have hlenS : ((okList d s).filter (fun c => c.server == S)).length
          + ((errList d s).filter (fun c => c.server == S)).length
          + ((remList d s).filter (fun c => c.server == S)).length
        = (s.inflight.filter (fun c => c.server == S)).length := by
      have h := hper.length_eq
      simp only [List.filter_append, List.length_append] at h
      omega
    have hcount : countS (reapStep d s).serverlist S
        = countS s.serverlist S
          + (((okList d s).filter
              (fun c => 0 < (lookupQ s.url_queue c.server).length)).filter
                (fun c => c.server == S)).length
          + (((errList d s).filter
              (fun c => 0 < (lookupQ s.url_queue c.server).length)).filter
                (fun c => c.server == S)).length := by
      rw [reapStep_serverlist, countS_append, countS_append,
        countS_map_server, countS_map_server]
    have hb1 : (((okList d s).filter
          (fun c => 0 < (lookupQ s.url_queue c.server).length)).filter
            (fun c => c.server == S)).length
        ≤ ((okList d s).filter (fun c => c.server == S)).length :=
      List.Sublist.length_le
        (List.Sublist.filter _ (List.filter_sublist _))
    have hb2 : (((errList d s).filter
          (fun c => 0 < (lookupQ s.url_queue c.server).length)).filter
            (fun c => c.server == S)).length
        ≤ ((errList d s).filter (fun c => c.server == S)).length :=
      List.Sublist.length_le
        (List.Sublist.filter _ (List.filter_sublist _))
    have hcap := inv.server_cap S
    have hicdef : inflightCount s S
        = (s.inflight.filter (fun c => c.server == S)).length := rfl
    rw [hcount, hic]
    omega
  · intro S
    rw [reapStep_events, reapStep_url_queue, launchedOf_append,
      launchedOf_append, launchedOf_completes, launchedOf_completes]
    simpa using inv.launch_queue S
  · rw [reapStep_url_queue]
    exact inv.keys_eq
  · rw [reapStep_npackages]
    exact inv.npack
  · intro c hcm
    rw [reapStep_curllist] at hcm
    rcases List.mem_append.mp hcm with h1 | h2
    · rcases List.mem_append.mp h1 with h3 | h4
      · exact inv.idle_closed c h3
      · rcases List.mem_map.mp h4 with ⟨x, _, rfl⟩
        rfl
    · rcases List.mem_map.mp h2 with ⟨x, _, rfl⟩
      rfl
  · intro c hcm
    rw [hin] at hcm
    simp only [remList] at hcm
    exact inv.live_open c (List.mem_of_mem_filter hcm)
  · rw [reapStep_events, closesOf_append, closesOf_append,
      closesOf_completes, closesOf_completes, opensOf_append,
      opensOf_append, opensOf_completes, opensOf_completes]
    simp only [List.append_nil]
    have hifr : inflightFps (reapStep d s)
        = (remList d s).filterMap (fun c => c.fp) := by
      simp only [inflightFps, hin]
    rw [hifr]
    have hok_some : ∀ c ∈ okList d s, (c.fp).isSome = true := fun c hcm =>
      inv.live_open c (List.mem_of_mem_filter hcm)
    have herr_some : ∀ c ∈ errList d s, (c.fp).isSome = true := fun c hcm =>
      inv.live_open c (List.mem_of_mem_filter hcm)
    rw [← fps_of_all_some hok_some, ← fps_of_all_some herr_some]
    have hfm : ((okList d s).filterMap (fun c => c.fp)
        ++ ((errList d s).filterMap (fun c => c.fp)
          ++ (remList d s).filterMap (fun c => c.fp))).Perm
        (inflightFps s) := by
      simp only [inflightFps]
      rw [← List.filterMap_append, ← List.filterMap_append]
      apply List.Perm.filterMap
      have h := tri_perm d s.inflight
      simpa [okList, errList, remList, List.append_assoc] using h
    have hall : closesOf s.events
          ++ (okList d s).filterMap (fun c => c.fp)
          ++ (errList d s).filterMap (fun c => c.fp)
          ++ (remList d s).filterMap (fun c => c.fp)
        = closesOf s.events
          ++ ((okList d s).filterMap (fun c => c.fp)
            ++ ((errList d s).filterMap (fun c => c.fp)
              ++ (remList d s).filterMap (fun c => c.fp))) := by
      simp [List.append_assoc]
    rw [hall]
    exact (List.Perm.append_left _ hfm).trans inv.fp_perm
  · intro fp hfp
    rw [reapStep_events, opensOf_append, opensOf_append, opensOf_completes,
      opensOf_completes] at hfp
    simp only [List.append_nil] at hfp
    rw [reapStep_nextFp]
    exact inv.opens_lt fp hfp
  · rw [reapStep_events, opensOf_append, opensOf_append, opensOf_completes,
      opensOf_completes]
    simp only [List.append_nil]
    exact inv.opens_nd

end YumMT

namespace YumMT

/-- Every scheduler micro-step preserves the invariant. -/
theorem Inv_mstep {maxT tps : Nat} {q0 : QTable} {fsOpen : String → Bool}
    {s s2 : RS} (inv : Inv maxT tps q0 s) (h : MStep fsOpen s s2) :
    Inv maxT tps q0 s2 := by
  cases h with
  | skip srv rest hs hc hq => exact Inv_skip inv hs
  | launch srv remote loc tl sc cs rest hs hc hq hopen =>
      exact Inv_launch inv hs hc hq
  | reap d => exact Inv_reap inv d

/-- The invariant holds at every instant reachable during a run. -/
theorem Inv_reach {maxT tps : Nat} {q0 : QTable} {fsOpen : String → Bool}
    {s s2 : RS} (inv : Inv maxT tps q0 s) (h : Reach fsOpen s s2) :
    Inv maxT tps q0 s2 := by
  induction h with
  | refl => exact inv
  | tail hab hbc ih => exact Inv_mstep ih hbc

/-- A normal admission loop pass is a chain of micro-steps. -/
theorem admissionGo_reach (fsOpen : String → Bool) :
    ∀ (sl : List String) (s s2 : RS), s.serverlist = sl →
      admissionGo fsOpen sl s = .ok s2 → Reach fsOpen s s2 := by
  intro sl
  induction sl with
  | nil =>
    intro s s2 hsl h
    simp only [admissionGo] at h
    cases h
    exact Relation.ReflTransGen.refl
  | cons srv rest ih =>
    intro s s2 hsl h
    simp only [admissionGo] at h
    cases hc : s.curllist with
    | nil =>
      rw [hc] at h
      cases h
      exact Relation.ReflTransGen.refl
    | cons sc cs =>
      rw [hc] at h
      cases hq : lookupQ s.url_queue srv with
      | nil =>
        rw [hq] at h
        have hstep : MStep fsOpen s (skipUpd s rest) :=
          MStep.skip s srv rest hsl (by rw [hc]; simp) hq
        exact Relation.ReflTransGen.trans
          (Relation.ReflTransGen.single hstep)
          (ih (skipUpd s rest) s2 rfl h)
      | cons pr tl =>
        obtain ⟨remote, loc⟩ := pr
        rw [hq] at h
        by_cases hfs : fsOpen loc
        · simp only [hfs, if_true] at h
          have hstep : MStep fsOpen s (launchUpd s srv remote loc sc cs rest) :=
            MStep.launch s srv remote loc tl sc cs rest hsl hc hq hfs
          exact Relation.ReflTransGen.trans
            (Relation.ReflTransGen.single hstep)
            (ih (launchUpd s srv remote loc sc cs rest) s2 rfl h)
        · simp only [hfs, if_false] at h
          cases h

/-- A run of the download loop that returns normally reaches a drained
state and tears it down. -/
theorem fetchLoop_ok {fsOpen : String → Bool}
    {oracle : Nat → Nat → Option Bool} :
    ∀ (fuel t : Nat) (s s2 : RS),
      fetchLoop fsOpen oracle fuel t s = .ok s2 →
      ∃ spre : RS, Reach fsOpen s spre ∧ spre.npackages ≤ spre.processed ∧
        s2 = teardown spre := by
  intro fuel
  induction fuel with
  | zero =>
    intro t s s2 h
    rw [fetchLoop] at h
    by_cases hp : s.processed < s.npackages
    · simp only [hp, if_true] at h
      cases h
    · simp only [hp, if_false] at h
      cases h
      exact ⟨s, Relation.ReflTransGen.refl, Nat.le_of_not_lt hp, rfl⟩
  | succ fuel ih =>
    intro t s s2 h
    rw [fetchLoop] at h
    by_cases hp : s.processed < s.npackages
    · simp only [hp, if_true] at h
      cases hadm : admissionLoop fsOpen s with
      | openFail l se =>
        rw [hadm] at h
        cases h
      | ok s1 =>
        rw [hadm] at h
        obtain ⟨spre, hr, hple, hteq⟩ := ih (t + 1) (reapStep (oracle t) s1) s2 h
        refine ⟨spre, ?_, hple, hteq⟩
        have h1 : Reach fsOpen s s1 :=
          admissionGo_reach fsOpen s.serverlist s s1 rfl hadm
        have h2 : MStep fsOpen s1 (reapStep (oracle t) s1) :=
          MStep.reap s1 (oracle t)
        exact Relation.ReflTransGen.trans
          (Relation.ReflTransGen.trans h1 (Relation.ReflTransGen.single h2))
          hr
    · simp only [hp, if_false] at h
      cases h
      exact ⟨s, Relation.ReflTransGen.refl, Nat.le_of_not_lt hp, rfl⟩

/-- Teardown never touches the counters or the package count. -/
theorem teardown_counters (s : RS) :
    (teardown s).success = s.success ∧ (teardown s).failed = s.failed ∧
    (teardown s).active = s.active ∧ (teardown s).processed = s.processed ∧
    (teardown s).npackages = s.npackages :=
  ⟨rfl, rfl, rfl, rfl, rfl⟩

/-- When every handle is already closed, teardown closes nothing. -/
theorem teardown_events_of_closed {s : RS}
    (hidle : ∀ c ∈ s.curllist, c.fp = none) (hinf : s.inflight = []) :
    (teardown s).events = s.events := by
  simp only [teardown]
  have hfm : (s.curllist ++ s.inflight).filterMap (fun c => c.fp) = [] := by
    rw [List.filterMap_eq_nil_iff]
    intro c hcm
    rcases List.mem_append.mp hcm with h1 | h2
    · exact hidle c h1
    · rw [hinf] at h2
      cases h2
  rw [hfm]
  simp

/-- At a drained state the counters balance and nothing is in flight. -/
theorem Inv_final {maxT tps : Nat} {q0 : QTable} {s : RS}
    (inv : Inv maxT tps q0 s) (hdone : s.npackages ≤ s.processed) :
    s.success + s.failed = s.npackages ∧ s.active = 0 ∧ s.inflight = [] := by
  have h1 := inv.counters
  have h2 := inv.conserve
  have h3 := inv.act_len
  refine ⟨by omega, by omega, ?_⟩
  have hl : s.inflight.length = 0 := by omega
  exact List.length_eq_zero.mp hl

end YumMT

namespace YumMT

/-- Completion bookkeeping: per server, the completions so far followed by
the tasks still in flight are exactly the launches so far, in order.  This
holds throughout a run when `threads_per_server = 1`. -/
def InvK (s : RS) : Prop :=
  ∀ S, completedOf s.events S ++ inflightT s S = launchedOf s.events S

theorem InvK_mkInit (maxT tps : Nat) (mt : MultiThread) :
    InvK (mkInit maxT tps mt) := by
  intro S
  simp [mkInit, completedOf, launchedOf, inflightT]

theorem InvK_launch {s : RS} (hk : InvK s) (srv remote loc : String)
    (sc : Curl) (cs : List Curl) (rest : List String) :
    InvK (launchUpd s srv remote loc sc cs rest) := by
  intro S
  show completedOf (s.events ++ [Event.launch srv remote loc s.nextFp]) S
      ++ inflightT (launchUpd s srv remote loc sc cs rest) S
      = launchedOf (s.events ++ [Event.launch srv remote loc s.nextFp]) S
  rw [completedOf_append, completedOf_launch, launchedOf_append,
    launchedOf_launch]
  have hT : inflightT (launchUpd s srv remote loc sc cs rest) S
      = inflightT s S ++ (if srv == S then [(remote, loc)] else []) := by
    simp only [launchUpd, inflightT, List.filter_append]
    by_cases hsv : srv == S <;> simp [List.filter_cons, hsv]
  rw [hT]
  simp only [List.append_nil, ← List.append_assoc]
  rw [hk S]

theorem InvK_reap {maxT : Nat} {q0 : QTable} {s : RS}
    (inv : Inv maxT 1 q0 s) (hk : InvK s) (d : Nat → Option Bool) :
    InvK (reapStep d s) := by
  have hnd_in : (s.inflight.map (fun c => c.id)).Nodup := by
    have h := inv.ids_nodup
    rw [List.map_append, List.nodup_append] at h
    exact h.2.1
  have hin : (reapStep d s).inflight = remList d s :=
    reapStep_inflight d s hnd_in
  intro S
  have hokS : (okList d s).filter (fun c => c.server == S)
      = (s.inflight.filter (fun c => c.server == S)).filter
          (fun c => d c.id == some true) := by
    simp only [okList]
    rw [List.filter_filter, List.filter_filter]
    apply List.filter_congr
    intro x _
    rw [Bool.and_comm]
  have herrS : (errList d s).filter (fun c => c.server == S)
      = (s.inflight.filter (fun c => c.server == S)).filter
          (fun c => d c.id == some false) := by
    simp only [errList]
    rw [List.filter_filter, List.filter_filter]
    apply List.filter_congr
    intro x _
    rw [Bool.and_comm]
  have hremS : (remList d s).filter (fun c => c.server == S)
      = (s.inflight.filter (fun c => c.server == S)).filter
          (fun c => d c.id == none) := by
    simp only [remList]
    rw [List.filter_filter, List.filter_filter]
    apply List.filter_congr
    intro x _
    rw [Bool.and_comm]
  have hcap := inv.server_cap S
  have hic : inflightCount s S
      = (s.inflight.filter (fun c => c.server == S)).length := rfl
  have hle : (s.inflight.filter (fun c => c.server == S)).length ≤ 1 := by
    omega
  have hcase : s.inflight.filter (fun c => c.server == S) = []
      ∨ ∃ c, s.inflight.filter (fun c => c.server == S) = [c] := by
    cases hls : s.inflight.filter (fun c => c.server == S) with
    | nil => exact Or.inl rfl
    | cons c t =>
      cases t with
      | nil => exact Or.inr ⟨c, rfl⟩
      | cons c2 t2 =>
        rw [hls] at hle
        simp at hle
  have hT : inflightT (reapStep d s) S
      = ((remList d s).filter (fun c => c.server == S)).map
          (fun c => (c.remote, c.loc)) := by
    simp only [inflightT, hin]
  have hC : completedOf (reapStep d s).events S
      = completedOf s.events S
        ++ ((okList d s).filter (fun c => c.server == S)).map
            (fun c => (c.remote, c.loc))
        ++ ((errList d s).filter (fun c => c.server == S)).map
            (fun c => (c.remote, c.loc)) := by
    rw [reapStep_events, completedOf_append, completedOf_append,
      completedOf_completes, completedOf_completes]
  have hL : launchedOf (reapStep d s).events S = launchedOf s.events S := by
    rw [reapStep_events, launchedOf_append, launchedOf_append,
      launchedOf_completes, launchedOf_completes]
    simp
  have h := hk S
  rw [hT, hC, hL, hokS, herrS, hremS]
  rcases hcase with hls | ⟨c, hls⟩
  · rw [hls]
    simpa [inflightT, hls] using h
  · rw [hls]
    have h2 : completedOf s.events S ++ [(c.remote, c.loc)]
        = launchedOf s.events S := by
      simpa [inflightT, hls] using h
    cases hdc : d c.id with
    | none =>
      simp only [List.filter_cons, List.filter_nil, hdc]
      simpa [List.append_assoc] using h2
    | some b =>
      cases b <;>
        simp only [List.filter_cons, List.filter_nil, hdc] <;>
        simpa [List.append_assoc] using h2

theorem InvK_mstep {maxT : Nat} {q0 : QTable} {fsOpen : String → Bool}
    {s s2 : RS} (inv : Inv maxT 1 q0 s) (hk : InvK s)
    (h : MStep fsOpen s s2) : InvK s2 := by
  cases h with
  | skip srv rest hs hc hq =>
      intro S
      exact hk S
  | launch srv remote loc tl sc cs rest hs hc hq hopen =>
      exact InvK_launch hk srv remote loc sc cs rest
  | reap d => exact InvK_reap inv hk d

theorem InvK_reach {maxT : Nat} {q0 : QTable} {fsOpen : String → Bool}
    {s s2 : RS} (inv : Inv maxT 1 q0 s) (hk : InvK s)
    (h : Reach fsOpen s s2) : InvK s2 := by
  induction h with
  | refl => exact hk
  | tail hab hbc ih => exact InvK_mstep (Inv_reach inv hab) ih hbc

end YumMT

namespace YumMT

/-- Popping a ready entry whose queue is empty discards the entry and
continues the admission loop on an otherwise unchanged state. -/
theorem admissionLoop_skip {fsOpen : String → Bool} {s : RS} {srv : String}
    {rest : List String} (hs : s.serverlist = srv :: rest)
    (hc : s.curllist ≠ []) (hq : lookupQ s.url_queue srv = []) :
    admissionLoop fsOpen s = admissionLoop fsOpen (skipUpd s rest) := by
  show admissionGo fsOpen s.serverlist s
      = admissionGo fsOpen (skipUpd s rest).serverlist (skipUpd s rest)
  rw [hs]
  cases hcl : s.curllist with
  | nil => exact absurd hcl hc
  | cons sc cs => simp only [admissionGo, hcl, hq, skipUpd]

/-- When the output file of the dequeued task cannot be opened, the
admission loop aborts with that path, leaving the partially popped state. -/
theorem admissionLoop_openFail {fsOpen : String → Bool} {s : RS}
    {srv remote loc : String} {tl : List (String × String)} {sc : Curl}
    {cs : List Curl} {rest : List String}
    (hs : s.serverlist = srv :: rest) (hc : s.curllist = sc :: cs)
    (hq : lookupQ s.url_queue srv = (remote, loc) :: tl)
    (hfs : fsOpen loc = false) :
    admissionLoop fsOpen s = .openFail loc (abortUpd s srv cs rest) := by
  show admissionGo fsOpen s.serverlist s = _
  rw [hs]
  simp only [admissionGo, hc, hq, hfs]
  simp

/-- A reap round adds no ready entry for a server whose queue is empty. -/
theorem reapStep_count_of_empty (d : Nat → Option Bool) (s : RS)
    {S : String} (hq : lookupQ s.url_queue S = []) :
    countS (reapStep d s).serverlist S = countS s.serverlist S := by
  rw [reapStep_serverlist, countS_append, countS_append, countS_map_server,
    countS_map_server]
  have h1 : ((okList d s).filter
      (fun c => 0 < (lookupQ s.url_queue c.server).length)).filter
        (fun c => c.server == S) = [] := by
    rw [List.filter_eq_nil_iff]
    intro c hcm hsv
    have hcS : c.server = S := by rwa [beq_iff_eq] at hsv
    have hcond := (List.mem_filter.mp hcm).2
    rw [hcS, hq] at hcond
    simp at hcond
  have h2 : ((errList d s).filter
      (fun c => 0 < (lookupQ s.url_queue c.server).length)).filter
        (fun c => c.server == S) = [] := by
    rw [List.filter_eq_nil_iff]
    intro c hcm hsv
    have hcS : c.server = S := by rwa [beq_iff_eq] at hsv
    have hcond := (List.mem_filter.mp hcm).2
    rw [hcS, hq] at hcond
    simp at hcond
  rw [h1, h2]
  simp [countS]

end YumMT

namespace YumMT

/-- Server-name function used by the concrete runs below: every remote URI
maps to the single server `s`. -/
def nlW : String → String := fun _ => "s"

/-- File system on which every open succeeds. -/
def fsW : String → Bool := fun _ => true

/-- Oracle that finishes every in-flight transfer successfully. -/
def orcW : Nat → Nat → Option Bool := fun _ _ => some true

/-- Two packages submitted for the single server `s`. -/
def mtW : MultiThread :=
  add_package nlW (add_package nlW emptyMT "r1" "l1") "r2" "l2"

/-- File system on which every open raises. -/
def fsNone : String → Bool := fun _ => false

/-- File system on which only the first output path opens. -/
def fs2 : String → Bool := fun l => l == "l1"

/-- Oracle finishing handle 1 in round 0 and handle 0 in round 1: the
second launched task of a server completes first. -/
def orc6 : Nat → Nat → Option Bool := fun t i =>
  if t = 0 then (if i = 1 then some true else none) else some true

/-- A fresh handle as built by the constructor. -/
def cW : Curl := { id := 0, fp := none, remote := "", loc := "", server := "" }

/-- A run state whose only ready entry names a server with an empty queue. -/
def sC8 : RS :=
  { url_queue := [("s", [])], serverlist := ["s"], curllist := [cW],
    inflight := [], processed := 0, active := 0, success := 0, failed := 0,
    npackages := 0, events := [], nextFp := 0 }

/-- A run state with one queued task, used for the open-failure witness. -/
def sC4 : RS :=
  { url_queue := [("s", [("r", "l")])], serverlist := ["s"],
    curllist := [cW], inflight := [], processed := 0, active := 0,
    success := 0, failed := 0, npackages := 1, events := [], nextFp := 0 }

/-- C1: for every run of `fetch_packages` on `N` submitted tasks, if every
transfer handed to the transport eventually completes and the run returns,
then `success + failed = N` and `active = 0`; for `N = 0` it returns
immediately (already with zero loop fuel) with both counters zero. -/
theorem C1_fetch_counters (fsOpen : String → Bool)
    (oracle : Nat → Nat → Option Bool) (fuel maxT tps : Nat)
    (mt : MultiThread) (s2 : RS) (hwf : WF mt)
    (hok : fetch_packages fsOpen oracle fuel maxT tps mt = .ok s2) :
    s2.success + s2.failed = mt.npackages ∧ s2.active = 0 ∧
      (mt.npackages = 0 →
        fetch_packages fsOpen oracle 0 maxT tps mt = .ok s2 ∧
          s2.success = 0 ∧ s2.failed = 0) := by
  obtain ⟨spre, hr, hple, hteq⟩ :=
    fetchLoop_ok fuel 0 (mkInit maxT tps mt) s2 hok
  have hinv := Inv_reach (Inv_mkInit maxT tps hwf) hr
  have hfin := Inv_final hinv hple
  have hnp : spre.npackages = mt.npackages := by
    rw [hinv.npack, hwf.1]
  have hsucc : s2.success = spre.success := by rw [hteq]; rfl
  have hfail : s2.failed = spre.failed := by rw [hteq]; rfl
  have hactv : s2.active = spre.active := by rw [hteq]; rfl
  have htot := hfin.1
  refine ⟨?_, ?_, ?_⟩
  · rw [hsucc, hfail, ← hnp]
    exact htot
  · rw [hactv]
    exact hfin.2.1
  · intro hz
    have hni : ¬ (mkInit maxT tps mt).processed
        < (mkInit maxT tps mt).npackages := by
      simp [mkInit, hz]
    have hrun : fetch_packages fsOpen oracle fuel maxT tps mt
        = .ok (teardown (mkInit maxT tps mt)) := by
      unfold fetch_packages
      cases fuel with
      | zero => rw [fetchLoop, if_neg hni]
      | succ fuel2 => rw [fetchLoop, if_neg hni]
    have hs2 : s2 = teardown (mkInit maxT tps mt) := by
      rw [hok] at hrun
      exact FetchResult.ok.inj hrun
    refine ⟨?_, ?_, ?_⟩
    · unfold fetch_packages
      simp only [fetchLoop.eq_def]
      rw [if_neg hni, hs2]
    · rw [hsucc]
      omega
    · rw [hfail]
      omega

theorem C1_witness :
    WF mtW ∧
      ((stateOf (fetch_packages fsW orcW 4 2 2 mtW)).success
          + (stateOf (fetch_packages fsW orcW 4 2 2 mtW)).failed
          = mtW.npackages
        ∧ (stateOf (fetch_packages fsW orcW 4 2 2 mtW)).active = 0
        ∧ (mtW.npackages = 0 →
            fetch_packages fsW orcW 0 2 2 mtW
              = .ok (stateOf (fetch_packages fsW orcW 4 2 2 mtW))
            ∧ (stateOf (fetch_packages fsW orcW 4 2 2 mtW)).success = 0
            ∧ (stateOf (fetch_packages fsW orcW 4 2 2 mtW)).failed = 0)) :=
  ⟨by decide,
    C1_fetch_counters fsW orcW 4 2 2 mtW
      (stateOf (fetch_packages fsW orcW 4 2 2 mtW)) (by decide) (by decide)⟩

/-- C2: at every reachable instant of a run, the `active` counter is at
most `max_threads`; in particular with `max_threads = 1` at most one
transfer is ever in flight, so tasks execute strictly sequentially. -/
theorem C2_active_le_max (fsOpen : String → Bool) (maxT tps : Nat)
    (mt : MultiThread) (s2 : RS) (hwf : WF mt)
    (hr : Reach fsOpen (mkInit maxT tps mt) s2) :
    s2.active ≤ maxT ∧ (maxT = 1 → s2.active ≤ 1) := by
  have hinv := Inv_reach (Inv_mkInit maxT tps hwf) hr
  have h1 := hinv.act_len
  have h2 := hinv.workers
  exact ⟨by omega, fun h => by omega⟩

theorem C2_witness :
    WF mtW
    ∧ Reach fsW (mkInit 2 2 mtW)
        (reapStep (fun _ => some true) (mkInit 2 2 mtW))
    ∧ ((reapStep (fun _ => some true) (mkInit 2 2 mtW)).active ≤ 2
        ∧ (2 = 1 →
            (reapStep (fun _ => some true) (mkInit 2 2 mtW)).active ≤ 1)) :=
  ⟨by decide, Relation.ReflTransGen.single (MStep.reap _ _),
    C2_active_le_max fsW 2 2 mtW _ (by decide)
      (Relation.ReflTransGen.single (MStep.reap _ _))⟩

/-- C3: at every reachable instant, at most `threads_per_server` in-flight
transfers belong to any one server, and the initial ready list gives each
server exactly `min(threads_per_server, queue length)` entries. -/
theorem C3_per_server_cap (fsOpen : String → Bool) (maxT tps : Nat)
    (mt : MultiThread) (s2 : RS) (S : String) (hwf : WF mt)
    (hr : Reach fsOpen (mkInit maxT tps mt) s2) :
    inflightCount s2 S ≤ tps ∧
      countS (mkInit maxT tps mt).serverlist S
        = min tps (lookupQ mt.url_queue S).length := by
  have hinv := Inv_reach (Inv_mkInit maxT tps hwf) hr
  have h := hinv.server_cap S
  exact ⟨by omega, buildServerlist_count tps S hwf.2⟩

theorem C3_witness :
    WF mtW
    ∧ Reach fsW (mkInit 4 2 mtW)
        (reapStep (fun _ => some true) (mkInit 4 2 mtW))
    ∧ (inflightCount (reapStep (fun _ => some true) (mkInit 4 2 mtW)) "s" ≤ 2
        ∧ countS (mkInit 4 2 mtW).serverlist "s"
            = min 2 (lookupQ mtW.url_queue "s").length) :=
  ⟨by decide, Relation.ReflTransGen.single (MStep.reap _ _),
    C3_per_server_cap fsW 4 2 mtW _ "s" (by decide)
      (Relation.ReflTransGen.single (MStep.reap _ _))⟩

/-- C5: at every reachable instant, the tasks of a server launched so far
followed by its remaining queue are exactly its submitted tasks in
submission order, so per-server launches are FIFO. -/
theorem C5_fifo_launch (fsOpen : String → Bool) (maxT tps : Nat)
    (mt : MultiThread) (s2 : RS) (S : String) (hwf : WF mt)
    (hr : Reach fsOpen (mkInit maxT tps mt) s2) :
    launchedOf s2.events S ++ lookupQ s2.url_queue S
      = lookupQ mt.url_queue S :=
  (Inv_reach (Inv_mkInit maxT tps hwf) hr).launch_queue S

theorem C5_witness :
    WF mtW
    ∧ Reach fsW (mkInit 2 2 mtW)
        (reapStep (fun _ => some true) (mkInit 2 2 mtW))
    ∧ launchedOf (reapStep (fun _ => some true) (mkInit 2 2 mtW)).events "s"
        ++ lookupQ (reapStep (fun _ => some true) (mkInit 2 2 mtW)).url_queue "s"
      = lookupQ mtW.url_queue "s" :=
  ⟨by decide, Relation.ReflTransGen.single (MStep.reap _ _),
    C5_fifo_launch fsW 2 2 mtW _ "s" (by decide)
      (Relation.ReflTransGen.single (MStep.reap _ _))⟩

/-- C10: at every reachable instant the conservation identity
`processed + active + queued = npackages` holds. -/
theorem C10_conservation (fsOpen : String → Bool) (maxT tps : Nat)
    (mt : MultiThread) (s2 : RS) (hwf : WF mt)
    (hr : Reach fsOpen (mkInit maxT tps mt) s2) :
    s2.processed + s2.active + totalQ s2.url_queue = mt.npackages := by
  have hinv := Inv_reach (Inv_mkInit maxT tps hwf) hr
  have h1 := hinv.conserve
  have h2 := hinv.npack
  rw [hwf.1] at h2
  omega

theorem C10_witness :
    WF mtW
    ∧ Reach fsW (mkInit 2 2 mtW)
        (reapStep (fun _ => some true) (mkInit 2 2 mtW))
    ∧ (reapStep (fun _ => some true) (mkInit 2 2 mtW)).processed
        + (reapStep (fun _ => some true) (mkInit 2 2 mtW)).active
        + totalQ (reapStep (fun _ => some true) (mkInit 2 2 mtW)).url_queue
      = mtW.npackages :=
  ⟨by decide, Relation.ReflTransGen.single (MStep.reap _ _),
    C10_conservation fsW 2 2 mtW _ (by decide)
      (Relation.ReflTransGen.single (MStep.reap _ _))⟩

end YumMT

namespace YumMT

/-- C4 counterexample: with one queued package whose output path cannot be
opened, `fetch_packages` aborts with the raised path instead of counting a
failure and finishing; the `failed` counter stays 0. -/
theorem C4_counterexample :
    isIoFail (fetch_packages fsNone orcW 4 2 2 mtW) = true
    ∧ (stateOf (fetch_packages fsNone orcW 4 2 2 mtW)).failed = 0 := by
  decide

/-- C4 (amended): when `open(local, 'wb')` fails for a dequeued task, the
run aborts at that point with the raised path: the admission loop returns
the failure, the task is not counted, and the counters are unchanged. -/
theorem C4_amended_open_abort (fsOpen : String → Bool) (s : RS)
    (srv remote loc : String) (tl : List (String × String)) (sc : Curl)
    (cs : List Curl) (rest : List String)
    (hs : s.serverlist = srv :: rest) (hc : s.curllist = sc :: cs)
    (hq : lookupQ s.url_queue srv = (remote, loc) :: tl)
    (hfs : fsOpen loc = false) :
    admissionLoop fsOpen s = .openFail loc (abortUpd s srv cs rest)
    ∧ (abortUpd s srv cs rest).failed = s.failed
    ∧ (abortUpd s srv cs rest).success = s.success :=
  ⟨admissionLoop_openFail hs hc hq hfs, rfl, rfl⟩

theorem C4_witness :
    (sC4.serverlist = "s" :: [] ∧ sC4.curllist = cW :: []
      ∧ lookupQ sC4.url_queue "s" = ("r", "l") :: [] ∧ fsNone "l" = false)
    ∧ (admissionLoop fsNone sC4 = .openFail "l" (abortUpd sC4 "s" [] [])
      ∧ (abortUpd sC4 "s" [] []).failed = sC4.failed
      ∧ (abortUpd sC4 "s" [] []).success = sC4.success) :=
  ⟨⟨rfl, rfl, by decide, rfl⟩,
    C4_amended_open_abort fsNone sC4 "s" "r" "l" [] cW [] [] rfl rfl
      (by decide) rfl⟩

/-- C6 counterexample: two tasks of the same server are launched together
(`threads_per_server = 2`) and the transport finishes the second one first,
so the completion order reverses the submission order while the run still
ends normally. -/
theorem C6_counterexample :
    lookupQ mtW.url_queue "s" = [("r1", "l1"), ("r2", "l2")]
    ∧ completedOf (stateOf (fetch_packages fsW orc6 4 2 2 mtW)).events "s"
        = [("r2", "l2"), ("r1", "l1")]
    ∧ fetch_packages fsW orc6 4 2 2 mtW
        = .ok (stateOf (fetch_packages fsW orc6 4 2 2 mtW)) := by
  decide

/-- C6 (amended): per-server FIFO holds for launches in every run, and for
completions only under `threads_per_server = 1`: at every reachable instant
of such a run, the completions of a server so far, followed by its in-flight
task and its remaining queue, are exactly its submitted tasks in submission
order — completions never overtake submission order. -/
theorem C6_amended_fifo_completion (fsOpen : String → Bool) (maxT : Nat)
    (mt : MultiThread) (s2 : RS) (S : String) (hwf : WF mt)
    (hr : Reach fsOpen (mkInit maxT 1 mt) s2) :
    completedOf s2.events S ++ (inflightT s2 S ++ lookupQ s2.url_queue S)
      = lookupQ mt.url_queue S := by
  have hinv := Inv_reach (Inv_mkInit maxT 1 hwf) hr
  have hk := InvK_reach (Inv_mkInit maxT 1 hwf) (InvK_mkInit maxT 1 mt) hr
  rw [← List.append_assoc, hk S, hinv.launch_queue S]

theorem C6_witness :
    WF mtW
    ∧ Reach fsW (mkInit 2 1 mtW)
        (reapStep (fun _ => some true) (mkInit 2 1 mtW))
    ∧ completedOf
          (reapStep (fun _ => some true) (mkInit 2 1 mtW)).events "s"
        ++ (inflightT (reapStep (fun _ => some true) (mkInit 2 1 mtW)) "s"
          ++ lookupQ
              (reapStep (fun _ => some true) (mkInit 2 1 mtW)).url_queue "s")
      = lookupQ mtW.url_queue "s" :=
  ⟨by decide, Relation.ReflTransGen.single (MStep.reap _ _),
    C6_amended_fifo_completion fsW 2 mtW _ "s" (by decide)
      (Relation.ReflTransGen.single (MStep.reap _ _))⟩

/-- C7: a reap batch returns every finished handle, successful or failed,
to the idle pool, and appends exactly one ready entry for a finished
handle's server exactly when that server's queue is still non-empty. -/
theorem C7_reaper (d : Nat → Option Bool) (s : RS) :
    (reapStep d s).curllist
      = s.curllist ++ (okList d s).map clearFp ++ (errList d s).map clearFp
    ∧ (reapStep d s).serverlist
      = s.serverlist
        ++ ((okList d s).filter
              (fun c => 0 < (lookupQ s.url_queue c.server).length)).map
            (fun c => c.server)
        ++ ((errList d s).filter
              (fun c => 0 < (lookupQ s.url_queue c.server).length)).map
            (fun c => c.server) :=
  ⟨reapStep_curllist d s, reapStep_serverlist d s⟩

/-- C8: popping a ready entry for a server with an empty queue just drops
the entry — same admission result, no worker consumed, no counter changed —
and a reap round never re-adds a ready entry for a server whose queue is
empty. -/
theorem C8_skip_discard (fsOpen : String → Bool) (d : Nat → Option Bool)
    (s : RS) (srv : String) (rest : List String)
    (hs : s.serverlist = srv :: rest) (hc : s.curllist ≠ [])
    (hq : lookupQ s.url_queue srv = []) :
    admissionLoop fsOpen s = admissionLoop fsOpen (skipUpd s rest)
    ∧ countS (reapStep d s).serverlist srv = countS s.serverlist srv :=
  ⟨admissionLoop_skip hs hc hq, reapStep_count_of_empty d s hq⟩

theorem C8_witness :
    (sC8.serverlist = "s" :: [] ∧ sC8.curllist ≠ []
      ∧ lookupQ sC8.url_queue "s" = [])
    ∧ (admissionLoop fsW sC8 = admissionLoop fsW (skipUpd sC8 [])
      ∧ countS (reapStep (fun _ => some true) sC8).serverlist "s"
          = countS sC8.serverlist "s") := by
  refine ⟨⟨rfl, by decide, by decide⟩, ?_⟩
  exact C8_skip_discard fsW (fun _ => some true) sC8 "s" [] rfl (by decide) (by decide)

/-- C9 counterexample: the first task's output file is opened, then the
second task's `open` raises; `fetch_packages` exits by the exception with
the first file still open — one open event, no close event. -/
theorem C9_counterexample :
    isIoFail (fetch_packages fs2 orcW 4 2 2 mtW) = true
    ∧ opensOf (stateOf (fetch_packages fs2 orcW 4 2 2 mtW)).events = [0]
    ∧ closesOf (stateOf (fetch_packages fs2 orcW 4 2 2 mtW)).events = [] := by
  decide

/-- C9 (amended): on every run of `fetch_packages` that returns normally,
the closed file ids are a permutation of the opened ones and the opened ids
are distinct — every handle opened during the run is closed exactly once,
across the success, failure and teardown paths; a run aborted by an open
failure is exempt and can leave open handles behind. -/
theorem C9_amended_close_exactly_once (fsOpen : String → Bool)
    (oracle : Nat → Nat → Option Bool) (fuel maxT tps : Nat)
    (mt : MultiThread) (s2 : RS) (hwf : WF mt)
    (hok : fetch_packages fsOpen oracle fuel maxT tps mt = .ok s2) :
    (closesOf s2.events).Perm (opensOf s2.events)
    ∧ (opensOf s2.events).Nodup := by
  obtain ⟨spre, hr, hple, hteq⟩ :=
    fetchLoop_ok fuel 0 (mkInit maxT tps mt) s2 hok
  have hinv := Inv_reach (Inv_mkInit maxT tps hwf) hr
  have hfin := Inv_final hinv hple
  have hev : s2.events = spre.events := by
    rw [hteq]
    exact teardown_events_of_closed hinv.idle_closed hfin.2.2
  have hperm := hinv.fp_perm
  have hif : inflightFps spre = [] := by
    simp [inflightFps, hfin.2.2]
  rw [hif, List.append_nil] at hperm
  rw [hev]
  exact ⟨hperm, hinv.opens_nd⟩

theorem C9_witness :
    WF mtW
    ∧ fetch_packages fsW orcW 4 2 2 mtW
        = .ok (stateOf (fetch_packages fsW orcW 4 2 2 mtW))
    ∧ ((closesOf (stateOf (fetch_packages fsW orcW 4 2 2 mtW)).events).Perm
          (opensOf (stateOf (fetch_packages fsW orcW 4 2 2 mtW)).events)
      ∧ (opensOf (stateOf (fetch_packages fsW orcW 4 2 2 mtW)).events).Nodup) :=
  ⟨by decide, by decide,
    C9_amended_close_exactly_once fsW orcW 4 2 2 mtW
      (stateOf (fetch_packages fsW orcW 4 2 2 mtW)) (by decide) (by decide)⟩

end YumMT
